import Mathlib

/-
Verification of the workshop web crawler (src/Web Crawler/web_crawler.py).

The Python code is shallowly embedded over lists of characters.  Pure
functions of the crawler (extract_links, stream_text, try_llms_txt, the body
of crawl) are ported directly; the external collaborators (the HTTP fetch,
the html.parser tokenizer) are oracle parameters; the stdlib urllib.parse
resolution functions and the single regular expression used by the fallback
pass are modelled from their documented CPython behaviour, since they are
library code outside this repository.
-/

set_option maxHeartbeats 1000000

/-- Python strings are modelled as lists of characters. -/
abbrev Str := List Char

/-- View of a Lean string literal as the character-list model. -/
def str (s : String) : Str := s.data

/-- Boolean test that the first list is an initial segment of the second. -/
def startsWithL : Str → Str → Bool
  | [], _ => true
  | _ :: _, [] => false
  | a :: as, b :: bs => a == b && startsWithL as bs

/-- Python substring containment, the binary "in" operator on str. -/
def containsSub (needle : Str) : Str → Bool
  | [] => needle.isEmpty
  | c :: rest => startsWithL needle (c :: rest) || containsSub needle rest

/-- Python str.rfind: index of the last occurrence of the needle, if any. -/
def rfindIdx (needle : Str) : Str → Option Nat
  | [] => if needle.isEmpty then some 0 else none
  | c :: rest =>
    match rfindIdx needle rest with
    | some i => some (i + 1)
    | none => if startsWithL needle (c :: rest) then some 0 else none

/-- Python str.lower, character by character (the crawler compares ASCII markers only). -/
def toLowerL (s : Str) : Str := s.map Char.toLower

/-- Python whitespace test, ASCII fragment: space, tab, newline, carriage
return, vertical tab, form feed. -/
def isPySpace (c : Char) : Bool :=
  c.toNat == 32 || c.toNat == 9 || c.toNat == 10 || c.toNat == 13 ||
    c.toNat == 11 || c.toNat == 12

/-- Python str.rstrip with no arguments. -/
def rstripL (s : Str) : Str := (s.reverse.dropWhile isPySpace).reverse

/-- Python str.strip with no arguments. -/
def stripL (s : Str) : Str := ((s.dropWhile isPySpace).reverse.dropWhile isPySpace).reverse

/-- Python str.strip with a character predicate. -/
def stripP (p : Char → Bool) (s : Str) : Str :=
  ((s.dropWhile p).reverse.dropWhile p).reverse

/-- Python str.splitlines restricted to the line boundaries LF, CRLF and CR. -/
def splitlinesGo (acc : Str) : Str → List Str
  | [] => if acc.isEmpty then [] else [acc.reverse]
  | '\r' :: '\n' :: rest => acc.reverse :: splitlinesGo [] rest
  | '\r' :: rest => acc.reverse :: splitlinesGo [] rest
  | '\n' :: rest => acc.reverse :: splitlinesGo [] rest
  | c :: rest => splitlinesGo (c :: acc) rest

/-- Python str.splitlines. -/
def splitlines (s : Str) : List Str := splitlinesGo [] s

/-- Python str.split with a one-character separator. -/
def splitCharGo (sep : Char) (acc : Str) : Str → List Str
  | [] => [acc.reverse]
  | c :: rest =>
    if c == sep then acc.reverse :: splitCharGo sep [] rest
    else splitCharGo sep (c :: acc) rest

/-- Python str.split with a one-character separator, from the start. -/
def splitChar (sep : Char) (s : Str) : List Str := splitCharGo sep [] s

/-- Python str.find for one character: index of the first occurrence. -/
def findChar (c : Char) : Str → Option Nat
  | [] => none
  | x :: xs => if x == c then some 0 else Option.map (fun i => i + 1) (findChar c xs)

/-- Python str.find(ch, start): first occurrence at or after the given index. -/
def findCharFrom (c : Char) (start : Nat) (s : Str) : Option Nat :=
  Option.map (fun i => i + start) (findChar c (s.drop start))

/-- Python str.split(sep, 1) for a separator known to occur: the text before
the first occurrence and the text after it. -/
def splitFirst (sep : Char) : Str → Str × Str
  | [] => ([], [])
  | c :: rest =>
    if c == sep then ([], rest)
    else
      let p := splitFirst sep rest
      (c :: p.1, p.2)

/-- Result of urllib.parse.urlsplit: scheme, netloc, path, query, fragment. -/
structure SplitResult where
  scheme : Str
  netloc : Str
  path : Str
  query : Str
  fragment : Str
deriving DecidableEq

/-- Result of urllib.parse.urlparse: urlsplit plus the params component. -/
structure ParseResult where
  scheme : Str
  netloc : Str
  path : Str
  params : Str
  query : Str
  fragment : Str
deriving DecidableEq

/-- Characters allowed in a URL scheme, urllib.parse.scheme_chars. -/
def isSchemeChar (c : Char) : Bool :=
  c.isAlpha || c.isDigit || c == '+' || c == '-' || c == '.'

/-- WHATWG C0-control-or-space class stripped by urlsplit from the start of a URL. -/
def isC0OrSpace (c : Char) : Bool := c.toNat ≤ 32

/-- Tab, carriage return and newline, removed anywhere in a URL by urlsplit. -/
def isUnsafeUrlChar (c : Char) : Bool := c == '\t' || c == '\r' || c == '\n'

/-- urllib.parse._splitnetloc: the net-location extends to the first slash,
question mark or hash. -/
def splitnetloc (s : Str) : Str × Str :=
  (s.takeWhile fun c => !(c == '/' || c == '?' || c == '#'),
   s.dropWhile fun c => !(c == '/' || c == '?' || c == '#'))

/-- Model of urllib.parse.urlsplit (CPython, allow_fragments left at True).
The ValueError branches for bracketed IPv6 hosts and malformed netlocs are
not modelled; no claim exercises them. -/
def urlsplit (url0 : Str) (defscheme : Str) : SplitResult :=
  let url1 := (url0.dropWhile isC0OrSpace).filter fun c => !isUnsafeUrlChar c
  let scheme0 := (stripP isC0OrSpace defscheme).filter fun c => !isUnsafeUrlChar c
  let parsed :=
    match findChar ':' url1 with
    | some i =>
      if 0 < i then
        match url1.take i with
        | c0 :: cs =>
          if c0.isAlpha && (c0 :: cs).all isSchemeChar then
            some (toLowerL (url1.take i), url1.drop (i + 1))
          else none
        | [] => none
      else none
    | none => none
  let su := match parsed with
    | some p => p
    | none => (scheme0, url1)
  let nu :=
    if startsWithL (str "//") su.2 then splitnetloc (su.2.drop 2)
    else ([], su.2)
  let uf :=
    if nu.2.contains '#' then splitFirst '#' nu.2 else (nu.2, [])
  let pq :=
    if uf.1.contains '?' then splitFirst '?' uf.1 else (uf.1, [])
  ⟨su.1, nu.1, pq.1, pq.2, uf.2⟩

/-- urllib.parse.uses_params. -/
def uses_params : List Str :=
  [str "", str "ftp", str "hdl", str "prospero", str "http", str "imap",
   str "https", str "shttp", str "rtsp", str "rtspu", str "sip", str "sips",
   str "mms", str "sftp", str "tel"]

/-- urllib.parse._splitparams. -/
def splitparams (url : Str) : Str × Str :=
  let i :=
    if url.contains '/' then
      match rfindIdx (str "/") url with
      | some j => findCharFrom ';' j url
      | none => none
    else findChar ';' url
  match i with
  | some k => (url.take k, url.drop (k + 1))
  | none => (url, [])

/-- Model of urllib.parse.urlparse (allow_fragments left at True). -/
def urlparse (url : Str) (defscheme : Str) : ParseResult :=
  let s := urlsplit url defscheme
  if uses_params.contains s.scheme && s.path.contains ';' then
    let pp := splitparams s.path
    ⟨s.scheme, s.netloc, pp.1, pp.2, s.query, s.fragment⟩
  else
    ⟨s.scheme, s.netloc, s.path, [], s.query, s.fragment⟩

/-- Model of urllib.parse.urlunsplit. -/
def urlunsplit (scheme netloc path query fragment : Str) : Str :=
  let url1 :=
    if !netloc.isEmpty || (!path.isEmpty && startsWithL (str "//") path) then
      let p := if !path.isEmpty && !startsWithL (str "/") path then '/' :: path else path
      str "//" ++ netloc ++ p
    else path
  let url2 := if !scheme.isEmpty then scheme ++ ':' :: url1 else url1
  let url3 := if !query.isEmpty then url2 ++ '?' :: query else url2
  if !fragment.isEmpty then url3 ++ '#' :: fragment else url3

/-- Model of urllib.parse.urlunparse. -/
def urlunparse (scheme netloc path params query fragment : Str) : Str :=
  let p := if !params.isEmpty then path ++ ';' :: params else path
  urlunsplit scheme netloc p query fragment

/-- urllib.parse.uses_relative. -/
def uses_relative : List Str :=
  [str "", str "ftp", str "http", str "gopher", str "nntp", str "imap",
   str "wais", str "file", str "https", str "shttp", str "mms",
   str "prospero", str "rtsp", str "rtspu", str "sftp", str "svn",
   str "svn+ssh", str "ws", str "wss"]

/-- urllib.parse.uses_netloc. -/
def uses_netloc : List Str :=
  [str "", str "ftp", str "http", str "gopher", str "nntp", str "telnet",
   str "imap", str "wais", str "file", str "mms", str "https", str "shttp",
   str "snews", str "prospero", str "rtsp", str "rtspu", str "rsync",
   str "svn", str "svn+ssh", str "sftp", str "nfs", str "git",
   str "git+ssh", str "ws", str "wss", str "itms-services"]

/-- The slice assignment segments[1:-1] = filter(None, segments[1:-1]) of
urljoin: drop empty strings, keeping the final element even when empty. -/
def filterMidKeepLast : List Str → List Str
  | [] => []
  | [x] => [x]
  | x :: rest =>
    if x.isEmpty then filterMidKeepLast rest else x :: filterMidKeepLast rest

/-- The segment-resolution loop of urljoin: ".." pops, "." is dropped,
every other segment is appended. -/
def resolveSegs (segs : List Str) : List Str :=
  segs.foldl
    (fun acc seg =>
      if seg = str ".." then acc.dropLast
      else if seg = str "." then acc
      else acc ++ [seg]) []

/-- Model of urllib.parse.urljoin. -/
def urljoin (base url : Str) : Str :=
  if base.isEmpty then url
  else if url.isEmpty then base
  else
    let b := urlparse base []
    let u := urlparse url b.scheme
    if u.scheme ≠ b.scheme ∨ u.scheme ∉ uses_relative then url
    else
      let inNetloc := u.scheme ∈ uses_netloc
      if inNetloc ∧ ¬u.netloc.isEmpty = true then
        urlunparse u.scheme u.netloc u.path u.params u.query u.fragment
      else
        let netloc := if inNetloc then b.netloc else u.netloc
        if u.path.isEmpty ∧ u.params.isEmpty then
          let query := if u.query.isEmpty then b.query else u.query
          urlunparse u.scheme netloc b.path b.params query u.fragment
        else
          let base_parts0 := splitChar '/' b.path
          let base_parts :=
            if base_parts0.getLast? ≠ some [] then base_parts0.dropLast
            else base_parts0
          let segments :=
            if startsWithL (str "/") u.path then splitChar '/' u.path
            else
              match base_parts ++ splitChar '/' u.path with
              | [] => []
              | x :: rest => x :: filterMidKeepLast rest
          let resolved0 := resolveSegs segments
          let resolved :=
            if segments.getLast? = some (str ".") ∨ segments.getLast? = some (str "..") then
              resolved0 ++ [[]]
            else resolved0
          let joined := List.intercalate (str "/") resolved
          let path := if joined.isEmpty then str "/" else joined
          urlunparse u.scheme netloc path u.params u.query u.fragment

/-- Quote characters of the fallback regular expression character classes:
the double quote (34) and the single quote (39). -/
def isQuoteChar (c : Char) : Bool := c.toNat == 34 || c.toNat == 39

/-- Consume a literal pattern case-insensitively, as re.IGNORECASE matching
of ASCII letters; returns the remainder on success. -/
def eatCI : Str → Str → Option Str
  | [], s => some s
  | _ :: _, [] => none
  | p :: ps, c :: cs => if Char.toLower c == Char.toLower p then eatCI ps cs else none

/-- One attempted match of the fallback pattern r-string
href\s*=\s*["...]([^"...]+)["...] starting at a position whose first character
is the given one: the captured group and the remainder after the match.  The
greedy one-or-more group runs to the first quote character, which then serves
as the closing delimiter, so opening and closing quotes match independently. -/
def matchHrefFrom (c : Char) (rest : Str) : Option (Str × Str) :=
  if Char.toLower c ≠ 'h' then none
  else
    match eatCI (str "ref") rest with
    | none => none
    | some r1 =>
      match r1.dropWhile isPySpace with
      | [] => none
      | c2 :: r3 =>
        if c2 ≠ '=' then none
        else
          match r3.dropWhile isPySpace with
          | [] => none
          | c3 :: r5 =>
            if ¬isQuoteChar c3 = true then none
            else
              if (r5.takeWhile fun d => !isQuoteChar d).isEmpty then none
              else
                match r5.dropWhile fun d => !isQuoteChar d with
                | [] => none
                | _ :: r7 => some (r5.takeWhile fun d => !isQuoteChar d, r7)

/-- Length bound used for the termination of the findall scan. -/
theorem eatCI_length : ∀ pat s r, eatCI pat s = some r → r.length ≤ s.length := by
  intro pat
  induction pat with
  | nil => intro s r h; simp [eatCI] at h; simp [h]
  | cons p ps ih =>
    intro s r h
    cases s with
    | nil => simp [eatCI] at h
    | cons c cs =>
      simp only [eatCI] at h
      split at h
      · have := ih cs r h
        simp only [List.length_cons]
        omega
      · exact absurd h (by simp)

/-- The length of dropWhile never exceeds the length of the input. -/
theorem dropWhile_length_le (p : Char → Bool) (l : Str) :
    (l.dropWhile p).length ≤ l.length := by
  induction l with
  | nil => simp
  | cons c cs ih =>
    by_cases h : p c
    · simp [List.dropWhile_cons, h]; omega
    · simp [List.dropWhile_cons, h]

/-- A successful match consumes at least the four pattern letters, so the
remainder is shorter than the scanned text. -/
theorem matchHrefFrom_length (c : Char) (rest : Str) (vr : Str × Str)
    (h : matchHrefFrom c rest = some vr) : vr.2.length ≤ rest.length := by
  unfold matchHrefFrom at h
  split at h
  · exact absurd h (by simp)
  · split at h
    · exact absurd h (by simp)
    · rename_i r1 h1
      have hr1 : r1.length ≤ rest.length := eatCI_length _ _ _ h1
      have hd1 : (r1.dropWhile isPySpace).length ≤ r1.length := dropWhile_length_le _ _
      split at h
      · exact absurd h (by simp)
      · rename_i c2 r3 h2
        have hr3 : r3.length + 1 ≤ r1.length := by
          have := congrArg List.length h2
          simp at this
          omega
        split at h
        · exact absurd h (by simp)
        · have hd3 : (r3.dropWhile isPySpace).length ≤ r3.length := dropWhile_length_le _ _
          split at h
          · exact absurd h (by simp)
          · rename_i c3 r5 h3
            have hr5 : r5.length + 1 ≤ r3.length := by
              have := congrArg List.length h3
              simp at this
              omega
            split at h
            · exact absurd h (by simp)
            · split at h
              · exact absurd h (by simp)
              · split at h
                · exact absurd h (by simp)
                · rename_i r6h r7 h4
                  have hr6 : (r5.dropWhile fun d => !isQuoteChar d).length ≤ r5.length :=
                    dropWhile_length_le _ _
                  have hr7 : r7.length + 1 ≤ r5.length := by
                    have := congrArg List.length h4
                    simp at this
                    omega
                  cases h
                  simp only []
                  omega

/-- Fuel-bounded scanner for the fallback pattern; a successful match
consumes at least five characters and a failed position one, so fuel at
least the text length makes the bound unreachable. -/
def hrefScanF : Nat → Str → List Str
  | _, [] => []
  | 0, _ :: _ => []
  | n + 1, c :: rest =>
    match matchHrefFrom c rest with
    | some vr => vr.1 :: hrefScanF n vr.2
    | none => hrefScanF n rest

/-- re.findall over the fallback pattern: scan left to right, emit each
captured href value, resume after the end of the match. -/
def hrefScan (s : Str) : List Str := hrefScanF s.length s

/-- The scan is independent of the fuel once the fuel covers the text. -/
theorem hrefScanF_congr : ∀ (n m : Nat) (s : Str), s.length ≤ n → s.length ≤ m →
    hrefScanF n s = hrefScanF m s := by
  intro n
  induction n with
  | zero =>
    intro m s hn _
    have hs : s = [] := List.length_eq_zero.mp (Nat.le_zero.mp hn)
    subst hs
    cases m <;> rfl
  | succ n ih =>
    intro m s hn hm
    cases s with
    | nil => cases m <;> rfl
    | cons c rest =>
      cases m with
      | zero => exact absurd hm (by simp)
      | succ m =>
        simp only [hrefScanF]
        have hr : rest.length ≤ n := by simp at hn; omega
        have hr2 : rest.length ≤ m := by simp at hm; omega
        cases hmm : matchHrefFrom c rest with
        | some vr =>
          have hlen := matchHrefFrom_length c rest vr hmm
          show vr.1 :: hrefScanF n vr.2 = vr.1 :: hrefScanF m vr.2
          rw [ih m vr.2 (le_trans hlen hr) (le_trans hlen hr2)]
        | none =>
          show hrefScanF n rest = hrefScanF m rest
          exact ih m rest hr hr2

/-- Unfolding step of the scan at a successful match position. -/
theorem hrefScan_cons_of_match (c : Char) (rest : Str) (vr : Str × Str)
    (h : matchHrefFrom c rest = some vr) :
    hrefScan (c :: rest) = vr.1 :: hrefScan vr.2 := by
  unfold hrefScan
  simp only [List.length_cons, hrefScanF, h]
  rw [hrefScanF_congr rest.length vr.2.length vr.2
    (matchHrefFrom_length c rest vr h) (le_refl _)]

/-- The fallback pass of extract_links (lines 77-80): resolve each stripped
regex capture against the base address. -/
def fallbackLinks (base html : Str) : List Str :=
  (hrefScan html).map fun m => urljoin base (stripL m)

/-- The deduplication loop of extract_links (lines 82-88): a seen set and an
ordered accumulator; the set is modelled as the list of kept elements. -/
def dedupGo (seen : List Str) : List Str → List Str
  | [] => []
  | x :: xs => if x ∈ seen then dedupGo seen xs else x :: dedupGo (x :: seen) xs

/-- Deduplicate preserving first-seen order, as extract_links does. -/
def dedupLinks (l : List Str) : List Str := dedupGo [] l

/-- One start-tag event as delivered by html.parser.HTMLParser; the
tokenizer itself is Python stdlib code outside this repository, so event
streams are inputs of the model.  Attribute values may be None. -/
structure TagEvent where
  tag : Str
  attrs : List (Str × Option Str)

/-- The per-attribute test of LinkExtractor.handle_starttag (line 39): the
name lower-cases to "href" and the value is neither None nor empty. -/
def attrTruthyHref (p : Str × Option Str) : Bool :=
  toLowerL p.1 == str "href" &&
    (match p.2 with
     | some w => !w.isEmpty
     | none => false)

/-- The attribute loop of LinkExtractor.handle_starttag (lines 37-41). -/
def findHref : List (Str × Option Str) → Option Str
  | [] => none
  | p :: rest => if attrTruthyHref p then p.2 else findHref rest

/-- Port of LinkExtractor.handle_starttag (lines 34-44), acting on the
accumulated links list. -/
def handle_starttag (base : Str) (links : List Str) (tag : Str)
    (attrs : List (Str × Option Str)) : List Str :=
  if toLowerL tag ≠ str "a" then links
  else
    match findHref attrs with
    | some href => links ++ [urljoin base href]
    | none => links

/-- The structural pass: parser.links after feeding the event stream. -/
def structuralLinks (base : Str) (events : List TagEvent) : List Str :=
  events.foldl (fun ls e => handle_starttag base ls e.tag e.attrs) []

/-- Port of extract_links (lines 66-90): structural pass, then fallback pass,
then order-preserving deduplication. -/
def extract_links (base : Str) (events : List TagEvent) (html : Str) : List Str :=
  dedupLinks (structuralLinks base events ++ fallbackLinks base html)

/-- Remainder of a line after the last "</style>" occurrence, trimmed
(stream_text lines 116-117 and 127-128); rfind works on the lower-cased
line, the slice on the original, and both have the same length. -/
def afterLastClose (line : Str) : Str :=
  match rfindIdx (str "</style>") (toLowerL line) with
  | some i => stripL (line.drop (i + 8))
  | none => []

/-- Port of the line loop of stream_text (lines 102-138): the sequence of
emitted content lines.  Banner lines and sleep pacing are presentation and
are not part of the model. -/
def streamGo (inStyle : Bool) : List Str → List Str
  | [] => []
  | raw :: rest =>
    let line := rstripL raw
    if line.isEmpty then streamGo inStyle rest
    else
      let lower := toLowerL line
      if containsSub (str "<style") lower then
        if containsSub (str "</style>") lower then
          let after := afterLastClose line
          if after.isEmpty then streamGo false rest else after :: streamGo false rest
        else streamGo true rest
      else if inStyle then
        if containsSub (str "</style>") lower then
          let after := afterLastClose line
          if after.isEmpty then streamGo false rest else after :: streamGo false rest
        else streamGo true rest
      else line :: streamGo false rest

/-- Port of stream_text (lines 93-140): emitted content lines of a page. -/
def stream_text (html : Str) : List Str := streamGo false (splitlines html)

/-- Modelled from the spec: the two-state machine exactly as the
specification words it, with the skip state examined first — inside the skip
state lines are suppressed until one contains the close marker, whose
trimmed remainder after the last occurrence is emitted if non-empty; outside
it a line containing the open marker transitions into the skip state with
the same-line close handling, and any other line is emitted verbatim. -/
def streamSpecGo (inStyle : Bool) : List Str → List Str
  | [] => []
  | raw :: rest =>
    let line := rstripL raw
    if line.isEmpty then streamSpecGo inStyle rest
    else
      let lower := toLowerL line
      if inStyle then
        if containsSub (str "</style>") lower then
          let after := afterLastClose line
          if after.isEmpty then streamSpecGo false rest else after :: streamSpecGo false rest
        else streamSpecGo true rest
      else if containsSub (str "<style") lower then
        if containsSub (str "</style>") lower then
          let after := afterLastClose line
          if after.isEmpty then streamSpecGo false rest else after :: streamSpecGo false rest
        else streamSpecGo true rest
      else line :: streamSpecGo false rest

/-- The specification's streamer over a whole page text. -/
def streamSpec (html : Str) : List Str := streamSpecGo false (splitlines html)

/-- UTF-8 continuation byte test. -/
def isCont (b : Nat) : Bool := 0x80 ≤ b && b ≤ 0xBF

/-- Decode one UTF-8 sequence whose lead byte is given, the following bytes
coming from the rest of the input: the decoded character (none for an
ill-formed sequence) and how many bytes beyond the lead were consumed.  For
an ill-formed sequence the consumed count covers the maximal valid prefix,
as CPython's replacement error handling does. -/
def utf8Step (b : Nat) (rest : List Nat) : Option Char × Nat :=
  if b ≤ 0x7F then (some (Char.ofNat b), 0)
  else if b ≤ 0xC1 then (none, 0)
  else if b ≤ 0xDF then
    match rest with
    | c1 :: _ =>
      if isCont c1 then (some (Char.ofNat ((b % 32) * 64 + c1 % 64)), 1)
      else (none, 0)
    | [] => (none, 0)
  else if b ≤ 0xEF then
    match rest with
    | c1 :: rest1 =>
      if (if b = 0xE0 then 0xA0 else 0x80) ≤ c1 ∧ c1 ≤ (if b = 0xED then 0x9F else 0xBF) then
        match rest1 with
        | c2 :: _ =>
          if isCont c2 then
            (some (Char.ofNat ((b % 16) * 4096 + (c1 % 64) * 64 + c2 % 64)), 2)
          else (none, 1)
        | [] => (none, 1)
      else (none, 0)
    | [] => (none, 0)
  else if b ≤ 0xF4 then
    match rest with
    | c1 :: rest1 =>
      if (if b = 0xF0 then 0x90 else 0x80) ≤ c1 ∧ c1 ≤ (if b = 0xF4 then 0x8F else 0xBF) then
        match rest1 with
        | c2 :: rest2 =>
          if isCont c2 then
            match rest2 with
            | c3 :: _ =>
              if isCont c3 then
                (some (Char.ofNat ((b % 8) * 262144 + (c1 % 64) * 4096 + (c2 % 64) * 64 + c3 % 64)), 3)
              else (none, 2)
            | [] => (none, 2)
          else (none, 1)
        | [] => (none, 1)
      else (none, 0)
    | [] => (none, 0)
  else (none, 0)

/-- Fuel-bounded strict UTF-8 decoding; each step consumes at least the lead
byte, so fuel at least the input length makes the bound unreachable. -/
def utf8DecodeStrictF : Nat → List Nat → Option (List Char)
  | _, [] => some []
  | 0, _ :: _ => none
  | n + 1, b :: rest =>
    match utf8Step b rest with
    | (some c, k) => Option.map (fun t => c :: t) (utf8DecodeStrictF n (rest.drop k))
    | (none, _) => none

/-- Strict UTF-8 decoding: none exactly when the input is ill-formed, the
condition under which bytes.decode("utf-8") would raise UnicodeDecodeError. -/
def utf8DecodeStrict (l : List Nat) : Option (List Char) := utf8DecodeStrictF l.length l

/-- Fuel-bounded replacing UTF-8 decoding. -/
def utf8DecodeReplaceF : Nat → List Nat → List Char
  | _, [] => []
  | 0, _ :: _ => []
  | n + 1, b :: rest =>
    match utf8Step b rest with
    | (some c, k) => c :: utf8DecodeReplaceF n (rest.drop k)
    | (none, k) => Char.ofNat 0xFFFD :: utf8DecodeReplaceF n (rest.drop k)

/-- bytes.decode("utf-8", errors="replace"): total decoding that substitutes
U+FFFD for each ill-formed sequence instead of rejecting the input. -/
def utf8DecodeReplace (l : List Nat) : List Char := utf8DecodeReplaceF l.length l

/-- The body-decoding step of fetch (lines 58-62).  The try/except falls back
to latin-1 only on LookupError, which the codec lookup of the literal name
"utf-8" never raises, so the branch is dead and the decode is the utf-8
replacement decode, which is total. -/
def fetchDecodeBody (contentBytes : List Nat) : List Char :=
  utf8DecodeReplace contentBytes

/-- A fetched page: final URL after redirects, declared content type, decoded
text, byte length — the quadruple returned by fetch (lines 47-63). -/
structure Page where
  finalUrl : Str
  contentType : Str
  text : Str
  size : Nat
deriving DecidableEq

/-- The external HTTP collaborator, a deterministic oracle; none models a
urllib.error.URLError or HTTPError raised by the fetch. -/
abbrev Fetch := Str → Option Page

/-- The external html.parser tokenizer, an oracle giving the start-tag
events that feeding a page text to LinkExtractor would produce. -/
abbrev Tok := Str → List TagEvent

/-- Candidate manifest address of try_llms_txt (lines 151-156): ensure a
trailing slash, then resolve the literal name "llms.txt". -/
def llmsUrl (url : Str) : Str :=
  let base := if url.getLast? = some '/' then url else url ++ str "/"
  urljoin base (str "llms.txt")

/-- Port of try_llms_txt (lines 143-177): the returned decision, printing
dropped.  A fetch error gives false; a fetched page whose content type does
not contain "text" case-insensitively, or whose stripped text is empty,
gives false; anything else gives true. -/
def try_llms_txt (fetchO : Fetch) (url : Str) : Bool :=
  match fetchO (llmsUrl url) with
  | none => false
  | some p =>
    if !containsSub (str "text") (toLowerL p.contentType) || (stripL p.text).isEmpty then false
    else true

/-- The observable outcome of one iteration of the crawl while-loop. -/
inductive StepEv where
  | fetchError (url : Str)
  | skip (url : Str)
  | page (url : Str) (streamed : List Str) (links : List Str)
deriving DecidableEq

/-- The scheme gate of the enqueue loop (crawl lines 215-219). -/
def isHttpLink (link : Str) : Bool :=
  let s := (urlparse link []).scheme
  s == str "http" || s == str "https"

/-- One iteration of the crawl while-loop on a dequeued url (lines 190-221):
the event observed and the queue left for the next iteration. -/
def crawlStep (fetchO : Fetch) (tok : Tok) (url : Str) (rest : List Str) :
    StepEv × List Str :=
  match fetchO url with
  | none => (StepEv.fetchError url, rest)
  | some p =>
    let ct := toLowerL p.contentType
    if containsSub (str "text/css") ct then (StepEv.skip url, rest)
    else if !containsSub (str "html") ct && !containsSub (str "xml") ct &&
        !containsSub (str "text") ct then
      (StepEv.skip url, rest)
    else
      let links := extract_links p.finalUrl (tok p.text) p.text
      (StepEv.page url (stream_text p.text) links, rest ++ links.filter isHttpLink)

/-- The crawl while-loop, fuel-bounded: some event list when the queue
empties within the given number of iterations, none while still running. -/
def crawlLoop (fetchO : Fetch) (tok : Tok) : Nat → List Str → Option (List StepEv)
  | _, [] => some []
  | 0, _ :: _ => none
  | n + 1, url :: rest =>
    Option.map (fun evs => (crawlStep fetchO tok url rest).1 :: evs)
      (crawlLoop fetchO tok n (crawlStep fetchO tok url rest).2)

/-- Queue contents after a number of iterations of the while-loop. -/
def crawlQueueIter (fetchO : Fetch) (tok : Tok) : Nat → List Str → List Str
  | 0, q => q
  | _ + 1, [] => []
  | n + 1, url :: rest => crawlQueueIter fetchO tok n (crawlStep fetchO tok url rest).2

/-- Observable events of one crawl invocation: manifest probes and loop steps. -/
inductive CrawlEv where
  | probe
  | step (e : StepEv)
deriving DecidableEq

/-- Port of crawl (lines 182-260): the ordered events observed, namely every
invocation of try_llms_txt on the seed and every loop iteration.  The source
contains the llms.txt check and the whole while-loop twice in sequence: the
second copy runs when the first loop's queue empties, and its probe is not
gated by check_llms.  none models a crawl still running at the fuel bound. -/
def crawl (fetchO : Fetch) (tok : Tok) (fuel : Nat) (start_url : Str)
    (check_llms : Bool) : Option (List CrawlEv) :=
  let probe1 : List CrawlEv := if check_llms then [CrawlEv.probe] else []
  if check_llms && try_llms_txt fetchO start_url then some probe1
  else
    match crawlLoop fetchO tok fuel [start_url] with
    | none => none
    | some evs1 =>
      if try_llms_txt fetchO start_url then
        some (probe1 ++ evs1.map CrawlEv.step ++ [CrawlEv.probe])
      else
        match crawlLoop fetchO tok fuel [start_url] with
        | none => none
        | some evs2 =>
          some (probe1 ++ evs1.map CrawlEv.step ++ [CrawlEv.probe] ++ evs2.map CrawlEv.step)

/-- Membership in the deduplication loop: kept exactly when present in the
input and not already seen. -/
theorem mem_dedupGo (x : Str) :
    ∀ (l seen : List Str), x ∈ dedupGo seen l ↔ x ∈ l ∧ x ∉ seen := by
  intro l
  induction l with
  | nil =>
    intro seen
    simp [dedupGo]
  | cons a as ih =>
    intro seen
    by_cases ha : a ∈ seen
    · simp only [dedupGo, if_pos ha, ih, List.mem_cons]
      constructor
      · exact fun h => ⟨Or.inr h.1, h.2⟩
      · rintro ⟨rfl | h, hs⟩
        · exact absurd ha hs
        · exact ⟨h, hs⟩
    · simp only [dedupGo, if_neg ha, List.mem_cons, ih, not_or]
      constructor
      · rintro (rfl | ⟨h, hxa, hs⟩)
        · exact ⟨Or.inl rfl, ha⟩
        · exact ⟨Or.inr h, hs⟩
      · rintro ⟨rfl | h, hs⟩
        · exact Or.inl rfl
        · by_cases hxa : x = a
          · exact Or.inl hxa
          · exact Or.inr ⟨h, hxa, hs⟩

/-- The deduplication loop emits no element twice. -/
theorem nodup_dedupGo : ∀ (l seen : List Str), (dedupGo seen l).Nodup := by
  intro l
  induction l with
  | nil =>
    intro seen
    simp [dedupGo]
  | cons a as ih =>
    intro seen
    by_cases ha : a ∈ seen
    · simpa [dedupGo, if_pos ha] using ih seen
    · simp only [dedupGo, if_neg ha]
      refine List.nodup_cons.mpr ⟨fun hc => ?_, ih (a :: seen)⟩
      exact ((mem_dedupGo a as (a :: seen)).mp hc).2 (List.mem_cons_self a seen)

/-- The deduplication loop keeps a subsequence of the input, preserving the
first-seen order. -/
theorem dedupGo_sublist : ∀ (l seen : List Str), (dedupGo seen l).Sublist l := by
  intro l
  induction l with
  | nil =>
    intro seen
    simp [dedupGo]
  | cons a as ih =>
    intro seen
    by_cases ha : a ∈ seen
    · simp only [dedupGo, if_pos ha]
      exact (ih seen).cons a
    · simp only [dedupGo, if_neg ha]
      exact (ih (a :: seen)).cons₂ a

/-- A list without duplicates counts each of its members exactly once. -/
theorem count_eq_one_of_nodup_mem :
    ∀ (l : List Str) (x : Str), l.Nodup → x ∈ l → l.count x = 1 := by
  intro l
  induction l with
  | nil =>
    intro x _ hm
    simp at hm
  | cons a as ih =>
    intro x hn hm
    rcases List.mem_cons.mp hm with rfl | hm2
    · have hna : x ∉ as := (List.nodup_cons.mp hn).1
      rw [List.count_cons_self, List.count_eq_zero_of_not_mem hna]
    · have hne : x ≠ a := by
        rintro rfl
        exact (List.nodup_cons.mp hn).1 hm2
      rw [List.count_cons_of_ne hne, ih x (List.nodup_cons.mp hn).2 hm2]

/-- C3: extract_links equals the structural pass followed by the fallback
pass, deduplicated by exact string equality preserving first-seen order:
the output is the dedup of the concatenation, has no duplicates, is an
order-preserving subsequence of the concatenation, keeps exactly the
elements of the concatenation, and an href resolved by both passes appears
exactly once. -/
theorem c3_extract_links_dedup (base : Str) (events : List TagEvent) (html : Str) :
    extract_links base events html =
      dedupLinks (structuralLinks base events ++ fallbackLinks base html) ∧
    (extract_links base events html).Nodup ∧
    (extract_links base events html).Sublist
      (structuralLinks base events ++ fallbackLinks base html) ∧
    (∀ x, x ∈ extract_links base events html ↔
      x ∈ structuralLinks base events ++ fallbackLinks base html) ∧
    (∀ x, x ∈ structuralLinks base events → x ∈ fallbackLinks base html →
      (extract_links base events html).count x = 1) := by
  refine ⟨rfl, nodup_dedupGo _ _, dedupGo_sublist _ _, fun x => ?_, fun x hs hf => ?_⟩
  · rw [extract_links, dedupLinks, mem_dedupGo]
    simp
  · have hmem : x ∈ extract_links base events html := by
      rw [extract_links, dedupLinks, mem_dedupGo]
      exact ⟨List.mem_append_left _ hs, List.not_mem_nil x⟩
    exact count_eq_one_of_nodup_mem _ _ (nodup_dedupGo _ _) hmem

/-- Witness for C3 at a page whose sole link is found by both passes. -/
theorem c3_witness :
    (extract_links (str "http://a/") [⟨str "a", [(str "href", some (str "x"))]⟩]
      (str "<a href=\"x\">")).count (str "http://a/x") = 1 :=
  (c3_extract_links_dedup (str "http://a/")
      [⟨str "a", [(str "href", some (str "x"))]⟩] (str "<a href=\"x\">")).2.2.2.2
    (str "http://a/x") (by decide) (by decide)

/-- A fetched page that passes the content-type gate is streamed, its links
extracted, and the http(s) ones appended to the queue. -/
theorem crawlStep_not_skipped (fetchO : Fetch) (tok : Tok) (url : Str) (rest : List Str)
    (p : Page) (hf : fetchO url = some p)
    (h : ¬(containsSub (str "text/css") (toLowerL p.contentType) = true ∨
        (containsSub (str "html") (toLowerL p.contentType) = false ∧
         containsSub (str "xml") (toLowerL p.contentType) = false ∧
         containsSub (str "text") (toLowerL p.contentType) = false))) :
    crawlStep fetchO tok url rest =
      (StepEv.page url (stream_text p.text) (extract_links p.finalUrl (tok p.text) p.text),
       rest ++ (extract_links p.finalUrl (tok p.text) p.text).filter isHttpLink) := by
  have ha : containsSub (str "text/css") (toLowerL p.contentType) = false := by
    cases hx : containsSub (str "text/css") (toLowerL p.contentType)
    · rfl
    · exact absurd (Or.inl hx) h
  have hb : ¬(containsSub (str "html") (toLowerL p.contentType) = false ∧
      containsSub (str "xml") (toLowerL p.contentType) = false ∧
      containsSub (str "text") (toLowerL p.contentType) = false) := fun hc => h (Or.inr hc)
  have hcond : (!containsSub (str "html") (toLowerL p.contentType) &&
      !containsSub (str "xml") (toLowerL p.contentType) &&
      !containsSub (str "text") (toLowerL p.contentType)) = false := by
    cases hx : containsSub (str "html") (toLowerL p.contentType) <;>
      cases hy : containsSub (str "xml") (toLowerL p.contentType) <;>
        cases hz : containsSub (str "text") (toLowerL p.contentType) <;>
          simp_all
  simp [crawlStep, hf, ha, hcond]

/-- A fetched page caught by the content-type gate is skipped: no streaming,
no extraction, the queue merely loses the dequeued address. -/
theorem crawlStep_skipped (fetchO : Fetch) (tok : Tok) (url : Str) (rest : List Str)
    (p : Page) (hf : fetchO url = some p)
    (h : containsSub (str "text/css") (toLowerL p.contentType) = true ∨
        (containsSub (str "html") (toLowerL p.contentType) = false ∧
         containsSub (str "xml") (toLowerL p.contentType) = false ∧
         containsSub (str "text") (toLowerL p.contentType) = false)) :
    crawlStep fetchO tok url rest = (StepEv.skip url, rest) := by
  rcases h with h1 | ⟨hb, hc, hd⟩
  · simp [crawlStep, hf, h1]
  · cases hcss : containsSub (str "text/css") (toLowerL p.contentType) <;>
      simp [crawlStep, hf, hcss, hb, hc, hd]

/-- C6: a successfully fetched page is skipped (no streaming, no extraction,
no enqueueing) exactly when its declared content type contains "text/css"
case-insensitively or contains none of "html", "xml", "text"; otherwise the
page is streamed and its links extracted and enqueued. -/
theorem c6_content_type_gate (fetchO : Fetch) (tok : Tok) (url : Str) (rest : List Str)
    (p : Page) (hf : fetchO url = some p) :
    (crawlStep fetchO tok url rest = (StepEv.skip url, rest) ↔
      (containsSub (str "text/css") (toLowerL p.contentType) = true ∨
        (containsSub (str "html") (toLowerL p.contentType) = false ∧
         containsSub (str "xml") (toLowerL p.contentType) = false ∧
         containsSub (str "text") (toLowerL p.contentType) = false))) ∧
    (¬(containsSub (str "text/css") (toLowerL p.contentType) = true ∨
        (containsSub (str "html") (toLowerL p.contentType) = false ∧
         containsSub (str "xml") (toLowerL p.contentType) = false ∧
         containsSub (str "text") (toLowerL p.contentType) = false)) →
      crawlStep fetchO tok url rest =
        (StepEv.page url (stream_text p.text) (extract_links p.finalUrl (tok p.text) p.text),
         rest ++ (extract_links p.finalUrl (tok p.text) p.text).filter isHttpLink)) := by
  constructor
  · constructor
    · intro hstep
      by_contra hnot
      rw [crawlStep_not_skipped fetchO tok url rest p hf hnot] at hstep
      simp at hstep
    · exact crawlStep_skipped fetchO tok url rest p hf
  · exact crawlStep_not_skipped fetchO tok url rest p hf

/-- Witness for C6 at a stylesheet content type. -/
theorem c6_witness :
    crawlStep (fun _ => some ⟨str "u", str "text/css", str "", 0⟩) (fun _ => [])
      (str "http://x/") [] = (StepEv.skip (str "http://x/"), []) :=
  (c6_content_type_gate (fun _ => some ⟨str "u", str "text/css", str "", 0⟩) (fun _ => [])
      (str "http://x/") [] ⟨str "u", str "text/css", str "", 0⟩ rfl).1.mpr
    (Or.inl (by decide))

/-- C7: a fetch failure produces an error report naming the address, removes
only that address from the queue, and the loop goes on to process exactly the
remaining queue. -/
theorem c7_fetch_error_non_fatal (fetchO : Fetch) (tok : Tok) (url : Str)
    (rest : List Str) (n : Nat) (hf : fetchO url = none) :
    crawlStep fetchO tok url rest = (StepEv.fetchError url, rest) ∧
    crawlLoop fetchO tok (n + 1) (url :: rest) =
      Option.map (fun evs => StepEv.fetchError url :: evs) (crawlLoop fetchO tok n rest) := by
  have h1 : crawlStep fetchO tok url rest = (StepEv.fetchError url, rest) := by
    simp [crawlStep, hf]
  refine ⟨h1, ?_⟩
  simp only [crawlLoop, h1]

/-- Witness for C7: one failing address still lets the loop terminate on the
remaining (empty) queue. -/
theorem c7_witness :
    crawlLoop (fun _ => none) (fun _ => []) 1 [str "http://x/"] =
      some [StepEv.fetchError (str "http://x/")] := by
  have h := c7_fetch_error_non_fatal (fun _ => none) (fun _ => []) (str "http://x/") [] 0 rfl
  rw [h.2]
  rfl

/-- C4: every extracted link with scheme http or https is appended to the
queue unconditionally — the new queue is the old remainder plus the filtered
link set, for every remainder, with no membership check — and a page whose
only enqueued link is its own address keeps the queue forever equal to that
one address, so the queue never empties. -/
theorem c4_unconditional_enqueue_cycle (fetchO : Fetch) (tok : Tok) (u : Str)
    (p : Page) (rest : List Str) (hf : fetchO u = some p)
    (hgate : ¬(containsSub (str "text/css") (toLowerL p.contentType) = true ∨
        (containsSub (str "html") (toLowerL p.contentType) = false ∧
         containsSub (str "xml") (toLowerL p.contentType) = false ∧
         containsSub (str "text") (toLowerL p.contentType) = false))) :
    (crawlStep fetchO tok u rest).2 =
      rest ++ (extract_links p.finalUrl (tok p.text) p.text).filter isHttpLink ∧
    ((extract_links p.finalUrl (tok p.text) p.text).filter isHttpLink = [u] →
      ∀ n, crawlQueueIter fetchO tok n [u] = [u]) := by
  refine ⟨by rw [crawlStep_not_skipped fetchO tok u rest p hf hgate], fun hself n => ?_⟩
  induction n with
  | zero => rfl
  | succ n ih =>
    have hstep0 := crawlStep_not_skipped fetchO tok u [] p hf hgate
    simp only [crawlQueueIter, hstep0, hself, List.nil_append]
    exact ih

/-- Witness for C4 on a one-page cycle. -/
theorem c4_witness :
    crawlQueueIter
      (fun x => if x = str "http://a/" then
        some ⟨str "http://a/", str "text/html", str "<a href=\"http://a/\">", 20⟩ else none)
      (fun _ => []) 3 [str "http://a/"] = [str "http://a/"] :=
  (c4_unconditional_enqueue_cycle
    (fun x => if x = str "http://a/" then
      some ⟨str "http://a/", str "text/html", str "<a href=\"http://a/\">", 20⟩ else none)
    (fun _ => []) (str "http://a/")
    ⟨str "http://a/", str "text/html", str "<a href=\"http://a/\">", 20⟩ []
    (by decide) (by decide)).2 (by decide) 3

/-- C5: try_llms_txt returns false exactly when the fetch of the candidate
manifest address fails, or succeeds with a declared content type lacking the
case-insensitive substring "text", or with a body that strips to nothing;
in every other case it returns true. -/
theorem c5_try_llms_txt_false_iff (fetchO : Fetch) (url : Str) :
    try_llms_txt fetchO url = false ↔
      fetchO (llmsUrl url) = none ∨
      ∃ p, fetchO (llmsUrl url) = some p ∧
        (containsSub (str "text") (toLowerL p.contentType) = false ∨
         stripL p.text = []) := by
  unfold try_llms_txt
  cases hfo : fetchO (llmsUrl url) with
  | none => simp
  | some p =>
    cases hct : containsSub (str "text") (toLowerL p.contentType) <;>
      cases hst : decide (stripL p.text = []) <;>
        simp_all [List.isEmpty_iff]

/-- Witness for C5: an octet-stream manifest is rejected. -/
theorem c5_witness :
    try_llms_txt (fun _ => some ⟨str "u", str "application/octet-stream", str "data", 4⟩)
      (str "http://x/") = false :=
  (c5_try_llms_txt_false_iff
      (fun _ => some ⟨str "u", str "application/octet-stream", str "data", 4⟩)
      (str "http://x/")).mpr
    (Or.inr ⟨⟨str "u", str "application/octet-stream", str "data", 4⟩, rfl, Or.inl (by decide)⟩)

/-- C1, evidence of the code bug: with the manifest-check flag off and a seed
whose fetch fails, the queue empties after one iteration, after which crawl
probes llms.txt anyway — though the flag is unset and a probe already never
ran — and then runs the whole traversal loop a second time from the seed. -/
theorem c1_crawl_reprobes_after_queue_empties :
    crawl (fun _ => none) (fun _ => []) 1 (str "http://x/") false =
      some [CrawlEv.step (StepEv.fetchError (str "http://x/")), CrawlEv.probe,
            CrawlEv.step (StepEv.fetchError (str "http://x/"))] := by decide

/-- The line loop of stream_text agrees with the specification's two-state
machine, which tests the skip state before looking for an open marker. -/
theorem streamGo_eq_spec : ∀ (lines : List Str) (inStyle : Bool),
    streamGo inStyle lines = streamSpecGo inStyle lines := by
  intro lines
  induction lines with
  | nil => intro inStyle; rfl
  | cons raw rest ih =>
    intro inStyle
    by_cases hblank : (rstripL raw).isEmpty = true <;>
      by_cases hopen : containsSub (str "<style") (toLowerL (rstripL raw)) = true <;>
        by_cases hclose : containsSub (str "</style>") (toLowerL (rstripL raw)) = true <;>
          cases inStyle <;>
            simp [streamGo, streamSpecGo, hblank, hopen, hclose, ih]

/-- No emitted line is blank: the blank-line guard drops empty lines and the
remainder after a close marker is emitted only when non-empty. -/
theorem streamGo_no_blank : ∀ (lines : List Str) (inStyle : Bool),
    [] ∉ streamGo inStyle lines := by
  intro lines
  induction lines with
  | nil => intro inStyle; simp [streamGo]
  | cons raw rest ih =>
    intro inStyle
    simp only [streamGo]
    by_cases hblank : (rstripL raw).isEmpty = true
    · rw [if_pos hblank]
      exact ih inStyle
    · rw [if_neg hblank]
      by_cases hopen : containsSub (str "<style") (toLowerL (rstripL raw)) = true
      · rw [if_pos hopen]
        by_cases hclose : containsSub (str "</style>") (toLowerL (rstripL raw)) = true
        · rw [if_pos hclose]
          by_cases hafter : (afterLastClose (rstripL raw)).isEmpty = true
          · rw [if_pos hafter]
            exact ih false
          · rw [if_neg hafter]
            intro hmem
            rcases List.mem_cons.mp hmem with h1 | h2
            · rw [← h1] at hafter
              exact hafter rfl
            · exact ih false h2
        · rw [if_neg hclose]
          exact ih true
      · rw [if_neg hopen]
        cases inStyle with
        | true =>
          rw [if_pos rfl]
          by_cases hclose : containsSub (str "</style>") (toLowerL (rstripL raw)) = true
          · rw [if_pos hclose]
            by_cases hafter : (afterLastClose (rstripL raw)).isEmpty = true
            · rw [if_pos hafter]
              exact ih false
            · rw [if_neg hafter]
              intro hmem
              rcases List.mem_cons.mp hmem with h1 | h2
              · rw [← h1] at hafter
                exact hafter rfl
              · exact ih false h2
          · rw [if_neg hclose]
            exact ih true
        | false =>
          rw [if_neg (by simp : ¬(false = true))]
          intro hmem
          rcases List.mem_cons.mp hmem with h1 | h2
          · rw [← h1] at hblank
            exact hblank rfl
          · exact ih false h2

/-- C2: the streamer's emitted line sequence equals the specified two-state
machine on every input; blank lines are never emitted; the multi-line
example emits exactly "foo" then "bar", and the one-line open-and-close
example emits exactly "c". -/
theorem c2_stream_text_two_state_machine :
    (∀ html : Str, stream_text html = streamSpec html) ∧
    (∀ html : Str, [] ∉ stream_text html) ∧
    stream_text (str "foo\n<style>\nbody\x7bcolor:red\x7d\n</style>\nbar") =
      [str "foo", str "bar"] ∧
    stream_text (str "a<style>b</style>c") = [str "c"] :=
  ⟨fun html => streamGo_eq_spec (splitlines html) false,
   fun html => streamGo_no_blank (splitlines html) false,
   by decide, by decide⟩

/-- Strict success forces the replacing decode to the same text; strict
failure forces a replacement character into the replacing decode. -/
theorem utf8F_strict_replace : ∀ (n : Nat) (l : List Nat), l.length ≤ n →
    (∀ t, utf8DecodeStrictF n l = some t → utf8DecodeReplaceF n l = t) ∧
    (utf8DecodeStrictF n l = none → Char.ofNat 0xFFFD ∈ utf8DecodeReplaceF n l) := by
  intro n
  induction n with
  | zero =>
    intro l hl
    have hnil : l = [] := List.length_eq_zero.mp (Nat.le_zero.mp hl)
    subst hnil
    refine ⟨fun t ht => ?_, fun ht => ?_⟩
    · simp [utf8DecodeStrictF] at ht
      simp [utf8DecodeReplaceF, ← ht]
    · simp [utf8DecodeStrictF] at ht
  | succ n ih =>
    intro l hl
    cases l with
    | nil =>
      refine ⟨fun t ht => ?_, fun ht => ?_⟩
      · simp [utf8DecodeStrictF] at ht
        simp [utf8DecodeReplaceF, ← ht]
      · simp [utf8DecodeStrictF] at ht
    | cons b rest =>
      have hrest : rest.length ≤ n := by
        simp only [List.length_cons] at hl
        omega
      rcases hstep : utf8Step b rest with ⟨oc, k⟩
      have hdrop : (rest.drop k).length ≤ n := by
        simp only [List.length_drop]
        omega
      have ihd := ih (rest.drop k) hdrop
      cases oc with
      | some c =>
        refine ⟨fun t ht => ?_, fun ht => ?_⟩
        · simp only [utf8DecodeStrictF, hstep] at ht
          cases hrec : utf8DecodeStrictF n (rest.drop k) with
          | none =>
            rw [hrec] at ht
            simp at ht
          | some t2 =>
            rw [hrec] at ht
            simp at ht
            simp only [utf8DecodeReplaceF, hstep]
            rw [ihd.1 t2 hrec]
            exact ht
        · simp only [utf8DecodeStrictF, hstep] at ht
          cases hrec : utf8DecodeStrictF n (rest.drop k) with
          | some t2 =>
            rw [hrec] at ht
            simp at ht
          | none =>
            simp only [utf8DecodeReplaceF, hstep]
            exact List.mem_cons_of_mem c (ihd.2 hrec)
      | none =>
        refine ⟨fun t ht => ?_, fun _ => ?_⟩
        · simp only [utf8DecodeStrictF, hstep] at ht
          exact Option.noConfusion ht
        · simp only [utf8DecodeReplaceF, hstep]
          exact List.mem_cons_self _ _

/-- C9: the fetch step's body decoding is total and never rejects: on any
byte sequence that strict UTF-8 decoding accepts it returns that decoding,
on any byte sequence strict decoding rejects it still returns a text, with
the ill-formed part replaced by U+FFFD rather than rejected; in particular
the lone byte 0xFF, rejected by strict decoding, decodes to one replacement
character. -/
theorem c9_decode_total (bytes : List Nat) :
    (∀ t, utf8DecodeStrict bytes = some t → fetchDecodeBody bytes = t) ∧
    (utf8DecodeStrict bytes = none → Char.ofNat 0xFFFD ∈ fetchDecodeBody bytes) ∧
    fetchDecodeBody [0xFF] = [Char.ofNat 0xFFFD] ∧
    utf8DecodeStrict [0xFF] = none :=
  ⟨fun t ht => (utf8F_strict_replace bytes.length bytes (le_refl _)).1 t ht,
   fun ht => (utf8F_strict_replace bytes.length bytes (le_refl _)).2 ht,
   by decide, by decide⟩

/-- Witness for C9 on a well-formed input. -/
theorem c9_witness : fetchDecodeBody [104, 105] = [Char.ofNat 104, Char.ofNat 105] :=
  (c9_decode_total [104, 105]).1 [Char.ofNat 104, Char.ofNat 105] (by decide)

/-- dropWhile passes over a satisfying block and stops at the first failure. -/
theorem dropWhile_append_stop (p : Char → Bool) : ∀ (l : Str) (x : Char) (r : Str),
    (∀ c ∈ l, p c = true) → p x = false → (l ++ x :: r).dropWhile p = x :: r := by
  intro l
  induction l with
  | nil =>
    intro x r _ hx
    simp [List.dropWhile_cons, hx]
  | cons a as ih =>
    intro x r hl hx
    have ha : p a = true := hl a (List.mem_cons_self a as)
    simp only [List.cons_append, List.dropWhile_cons, ha, if_true]
    exact ih x r (fun c hc => hl c (List.mem_cons_of_mem a hc)) hx

/-- takeWhile keeps a satisfying block and stops at the first failure. -/
theorem takeWhile_append_stop (p : Char → Bool) : ∀ (l : Str) (x : Char) (r : Str),
    (∀ c ∈ l, p c = true) → p x = false → (l ++ x :: r).takeWhile p = l := by
  intro l
  induction l with
  | nil =>
    intro x r _ hx
    simp [List.takeWhile_cons, hx]
  | cons a as ih =>
    intro x r hl hx
    have ha : p a = true := hl a (List.mem_cons_self a as)
    simp only [List.cons_append, List.takeWhile_cons, ha, if_true]
    rw [ih x r (fun c hc => hl c (List.mem_cons_of_mem a hc)) hx]

/-- Quote characters are not whitespace. -/
theorem isQuoteChar_not_space (c : Char) (h : isQuoteChar c = true) : isPySpace c = false := by
  simp only [isQuoteChar, Bool.or_eq_true, beq_iff_eq] at h
  simp only [isPySpace, Bool.or_eq_false_iff, beq_eq_false_iff_ne, ne_eq]
  omega

/-- Whitespace characters are not quotes. -/
theorem isPySpace_not_quote (c : Char) (h : isPySpace c = true) : isQuoteChar c = false := by
  simp only [isPySpace, Bool.or_eq_true, beq_iff_eq] at h
  simp only [isQuoteChar, Bool.or_eq_false_iff, beq_eq_false_iff_ne, ne_eq]
  omega

/-- A whitespace-only string strips to the empty string. -/
theorem stripL_all_space (s : Str) (h : ∀ c ∈ s, isPySpace c = true) : stripL s = [] := by
  unfold stripL
  rw [List.dropWhile_eq_nil_iff.mpr h]
  rfl

/-- Resolving the empty reference returns the base itself. -/
theorem urljoin_empty_url (base : Str) : urljoin base [] = base := by
  unfold urljoin
  by_cases hb : base.isEmpty = true
  · rw [if_pos hb]
    exact (List.isEmpty_iff.mp hb).symm
  · rw [if_neg hb]
    rfl

/-- One case-insensitive letter of the pattern is consumed. -/
theorem eatCI_cons (p : Char) (ps : Str) (c : Char) (cs : Str)
    (h : Char.toLower c = Char.toLower p) : eatCI (p :: ps) (c :: cs) = eatCI ps cs := by
  simp [eatCI, h]

/-- Evaluation of the fallback pattern at a matching position: any letters
lower-casing to "href", optional whitespace around the equals sign, one
quote of either kind, a non-empty quote-free value, and a closing quote of
either kind, followed by anything. -/
theorem matchHrefFrom_eval (h1 r1 e1 f1 : Char) (ws1 ws2 v : Str) (q1 q2 : Char)
    (post : Str)
    (hh : Char.toLower h1 = 'h') (hr : Char.toLower r1 = 'r')
    (he : Char.toLower e1 = 'e') (hf : Char.toLower f1 = 'f')
    (hws1 : ∀ c ∈ ws1, isPySpace c = true) (hws2 : ∀ c ∈ ws2, isPySpace c = true)
    (hq1 : isQuoteChar q1 = true) (hq2 : isQuoteChar q2 = true)
    (hv : v ≠ []) (hvq : ∀ c ∈ v, isQuoteChar c = false) :
    matchHrefFrom h1 (r1 :: e1 :: f1 :: (ws1 ++ '=' :: (ws2 ++ q1 :: (v ++ q2 :: post)))) =
      some (v, post) := by
  have hch : ¬Char.toLower h1 ≠ 'h' := by simp [hh]
  have he1 : eatCI (str "ref")
      (r1 :: e1 :: f1 :: (ws1 ++ '=' :: (ws2 ++ q1 :: (v ++ q2 :: post)))) =
      some (ws1 ++ '=' :: (ws2 ++ q1 :: (v ++ q2 :: post))) := by
    rw [show str "ref" = 'r' :: 'e' :: 'f' :: [] from rfl]
    rw [eatCI_cons _ _ _ _ (by rw [hr]; decide), eatCI_cons _ _ _ _ (by rw [he]; decide),
        eatCI_cons _ _ _ _ (by rw [hf]; decide)]
    rfl
  have hd1 : (ws1 ++ '=' :: (ws2 ++ q1 :: (v ++ q2 :: post))).dropWhile isPySpace =
      '=' :: (ws2 ++ q1 :: (v ++ q2 :: post)) :=
    dropWhile_append_stop isPySpace ws1 '=' _ hws1 (by decide)
  have hd2 : (ws2 ++ q1 :: (v ++ q2 :: post)).dropWhile isPySpace =
      q1 :: (v ++ q2 :: post) :=
    dropWhile_append_stop isPySpace ws2 q1 _ hws2 (isQuoteChar_not_space q1 hq1)
  have htw : (v ++ q2 :: post).takeWhile (fun d => !isQuoteChar d) = v :=
    takeWhile_append_stop _ v q2 post (fun c hc => by simp [hvq c hc]) (by simp [hq2])
  have hdw : (v ++ q2 :: post).dropWhile (fun d => !isQuoteChar d) = q2 :: post :=
    dropWhile_append_stop _ v q2 post (fun c hc => by simp [hvq c hc]) (by simp [hq2])
  have hvne : v.isEmpty = false := by
    cases v with
    | nil => exact absurd rfl hv
    | cons a as => rfl
  simp [matchHrefFrom, hch, he1, hd1, hd2, hq1, htw, hdw, hvne]

/-- The scan captures such an occurrence at the start of the text and then
carries on after the closing quote. -/
theorem hrefScan_cons_eval (h1 r1 e1 f1 : Char) (ws1 ws2 v : Str) (q1 q2 : Char)
    (post : Str)
    (hh : Char.toLower h1 = 'h') (hr : Char.toLower r1 = 'r')
    (he : Char.toLower e1 = 'e') (hf : Char.toLower f1 = 'f')
    (hws1 : ∀ c ∈ ws1, isPySpace c = true) (hws2 : ∀ c ∈ ws2, isPySpace c = true)
    (hq1 : isQuoteChar q1 = true) (hq2 : isQuoteChar q2 = true)
    (hv : v ≠ []) (hvq : ∀ c ∈ v, isQuoteChar c = false) :
    hrefScan (h1 :: r1 :: e1 :: f1 :: (ws1 ++ '=' :: (ws2 ++ q1 :: (v ++ q2 :: post)))) =
      v :: hrefScan post :=
  hrefScan_cons_of_match _ _ (v, post)
    (matchHrefFrom_eval h1 r1 e1 f1 ws1 ws2 v q1 q2 post hh hr he hf hws1 hws2 hq1 hq2 hv hvq)

/-- Every captured value is non-empty and quote-free. -/
theorem matchHrefFrom_sound (c : Char) (rest : Str) (vr : Str × Str)
    (h : matchHrefFrom c rest = some vr) :
    vr.1 ≠ [] ∧ ∀ d ∈ vr.1, isQuoteChar d = false := by
  unfold matchHrefFrom at h
  split at h
  · exact absurd h (by simp)
  · split at h
    · exact absurd h (by simp)
    · split at h
      · exact absurd h (by simp)
      · split at h
        · exact absurd h (by simp)
        · split at h
          · exact absurd h (by simp)
          · split at h
            · exact absurd h (by simp)
            · split at h
              · exact absurd h (by simp)
              · rename_i hemp
                split at h
                · exact absurd h (by simp)
                · cases h
                  dsimp only
                  refine ⟨fun hnil => ?_, fun d hd => ?_⟩
                  · rw [hnil] at hemp
                    exact hemp rfl
                  · have := List.mem_takeWhile_imp hd
                    simpa using this

/-- Every value the scan ever emits is non-empty and quote-free. -/
theorem hrefScanF_sound : ∀ (n : Nat) (s : Str), s.length ≤ n →
    ∀ u ∈ hrefScanF n s, u ≠ [] ∧ ∀ d ∈ u, isQuoteChar d = false := by
  intro n
  induction n with
  | zero =>
    intro s hs u hu
    have hnil : s = [] := List.length_eq_zero.mp (Nat.le_zero.mp hs)
    subst hnil
    simp [hrefScanF] at hu
  | succ n ih =>
    intro s hs u hu
    cases s with
    | nil => simp [hrefScanF] at hu
    | cons c rest =>
      have hrest : rest.length ≤ n := by
        simp only [List.length_cons] at hs
        omega
      cases hmm : matchHrefFrom c rest with
      | some vr =>
        simp only [hrefScanF, hmm] at hu
        rcases List.mem_cons.mp hu with rfl | h2
        · exact matchHrefFrom_sound c rest vr hmm
        · exact ih vr.2 (le_trans (matchHrefFrom_length c rest vr hmm) hrest) u h2
      | none =>
        simp only [hrefScanF, hmm] at hu
        exact ih rest hrest u hu

/-- C10: the fallback pattern accepts independent — possibly mismatched —
opening and closing quote characters around a value of one or more
characters none of which is a quote of either kind, case-insensitively in
the letters of href and with optional whitespace around the equals sign;
an empty quoted value is never matched, and no captured value contains a
quote character. -/
theorem c10_fallback_pattern (h1 r1 e1 f1 : Char) (ws1 ws2 v : Str) (q1 q2 : Char)
    (post : Str)
    (hh : Char.toLower h1 = 'h') (hr : Char.toLower r1 = 'r')
    (he : Char.toLower e1 = 'e') (hf : Char.toLower f1 = 'f')
    (hws1 : ∀ c ∈ ws1, isPySpace c = true) (hws2 : ∀ c ∈ ws2, isPySpace c = true)
    (hq1 : isQuoteChar q1 = true) (hq2 : isQuoteChar q2 = true)
    (hv : v ≠ []) (hvq : ∀ c ∈ v, isQuoteChar c = false) :
    hrefScan (h1 :: r1 :: e1 :: f1 :: (ws1 ++ '=' :: (ws2 ++ q1 :: (v ++ q2 :: post)))) =
      v :: hrefScan post ∧
    (∀ s u, u ∈ hrefScan s → u ≠ [] ∧ ∀ d ∈ u, isQuoteChar d = false) :=
  ⟨hrefScan_cons_eval h1 r1 e1 f1 ws1 ws2 v q1 q2 post hh hr he hf hws1 hws2 hq1 hq2 hv hvq,
   fun s u hu => hrefScanF_sound s.length s (le_refl _) u hu⟩

/-- Witness for C10: mixed case, a space before the equals sign, an opening
double quote and a closing single quote. -/
theorem c10_witness : hrefScan (str "HRef =\"x'") = [str "x"] := by
  have h := (c10_fallback_pattern 'H' 'R' 'e' 'f' [' '] [] ['x'] '"' (Char.ofNat 39) []
    (by decide) (by decide) (by decide) (by decide) (by decide) (by decide)
    (by decide) (by decide) (by decide) (by decide)).1
  rw [show str "HRef =\"x'" = 'H' :: 'R' :: 'e' :: 'f' ::
    ([' '] ++ '=' :: ([] ++ '"' :: (['x'] ++ Char.ofNat 39 :: []))) from by decide]
  rw [h]
  decide

/-- The attribute loop finds nothing when every href-named attribute carries
a falsy value — None or the empty string. -/
theorem findHref_none : ∀ (attrs : List (Str × Option Str)),
    (∀ p ∈ attrs, toLowerL p.1 = str "href" → p.2 = none ∨ p.2 = some []) →
    findHref attrs = none := by
  intro attrs
  induction attrs with
  | nil => intro _; rfl
  | cons p rest ih =>
    intro h
    have hp : attrTruthyHref p = false := by
      unfold attrTruthyHref
      by_cases hn : toLowerL p.1 = str "href"
      · rcases h p (List.mem_cons_self p rest) hn with h2 | h2 <;>
          simp [hn, h2]
      · simp [hn]
    simp only [findHref, hp]
    simp only [Bool.false_eq_true, if_false]
    exact ih fun q hq => h q (List.mem_cons_of_mem p hq)

/-- C8: the structural pass ignores empty href values — a start tag all of
whose href attributes are None or empty appends nothing, whatever the
accumulated links — while the fallback pass matches a whitespace-only quoted
value, strips it to the empty string, and resolves it to the base address
itself; the two passes therefore disagree on whitespace-only href values. -/
theorem c8_empty_href_asymmetry (base tag : Str) (links : List Str)
    (attrs : List (Str × Option Str)) (ws : Str) (q1 q2 : Char)
    (hattrs : ∀ p ∈ attrs, toLowerL p.1 = str "href" → p.2 = none ∨ p.2 = some [])
    (hws : ws ≠ []) (hwsp : ∀ c ∈ ws, isPySpace c = true)
    (hq1 : isQuoteChar q1 = true) (hq2 : isQuoteChar q2 = true) :
    handle_starttag base links tag attrs = links ∧
    fallbackLinks base ('h' :: 'r' :: 'e' :: 'f' :: '=' :: q1 :: (ws ++ [q2])) = [base] := by
  constructor
  · unfold handle_starttag
    rw [findHref_none attrs hattrs]
    split <;> rfl
  · unfold fallbackLinks
    have hscan : hrefScan ('h' :: 'r' :: 'e' :: 'f' ::
        ([] ++ '=' :: ([] ++ q1 :: (ws ++ q2 :: [])))) = ws :: hrefScan [] :=
      hrefScan_cons_eval 'h' 'r' 'e' 'f' [] [] ws q1 q2 []
        (by decide) (by decide) (by decide) (by decide) (by simp) (by simp)
        hq1 hq2 hws (fun c hc => isPySpace_not_quote c (hwsp c hc))
    simp only [List.nil_append] at hscan
    rw [hscan]
    simp only [List.map]
    rw [stripL_all_space ws hwsp, urljoin_empty_url]

/-- Witness for C8: one empty-valued href attribute on an anchor tag, and a
single-quoted two-space value closed by a double quote. -/
theorem c8_witness :
    handle_starttag (str "http://b/") [] (str "a") [(str "href", some [])] = [] ∧
    fallbackLinks (str "http://b/") (str "href='  \"") = [str "http://b/"] := by
  have h := c8_empty_href_asymmetry (str "http://b/") (str "a") []
    [(str "href", some [])] [' ', ' '] (Char.ofNat 39) '"'
    (by decide) (by decide) (by decide) (by decide) (by decide)
  refine ⟨h.1, ?_⟩
  rw [show str "href='  \"" = 'h' :: 'r' :: 'e' :: 'f' :: '=' :: Char.ofNat 39 ::
    ([' ', ' '] ++ ['"']) from by decide]
  exact h.2
